import Mathlib

/-!
Verification of the RAG chatbot pipeline
(`src/marbet-rag-public/rag_utils.py`, `src/marbet-rag-public/chatbot.py`).

The Python sources are shallowly embedded below: pure string processing
becomes Lean functions on `String`/`List Char`; file reads and the
streaming-generation call become explicit parameters (`Except`, fragment
lists); the per-query Streamlit turn becomes a state-transformer on
`SessionState`.  The `RecursiveCharacterTextSplitter` used by
`load_and_chunk` is third-party library code pinned by the import in
`rag_utils.py`; its documented algorithm (recursive separator choice,
split merging with overlap carry-over) is reproduced here.  The FAISS
vector store is third-party code with no source in the repository and is
modelled from the spec where noted.
-/

namespace RagChatbot

/-! ## String helpers -/

/-- `startsWithChars p l` decides whether `p` is an initial segment of `l`
(character-list version of Python `str.startswith`). -/
def startsWithChars : List Char → List Char → Bool
  | [], _ => true
  | _ :: _, [] => false
  | p :: ps, c :: cs => p == c && startsWithChars ps cs

/-- `occursIn p l` decides whether the pattern `p` occurs contiguously in `l`
(embeds Python `re.search(re.escape(s), text)` on an escaped literal). -/
def occursIn (p : List Char) : List Char → Bool
  | [] => p.isEmpty
  | c :: rest => startsWithChars p (c :: rest) || occursIn p rest

/-- String-level wrapper for `occursIn`. -/
def strOccurs (pat text : String) : Bool := occursIn pat.data text.data

/-- Embeds Python `str.strip()`: drop whitespace from both ends. -/
def stripStr (s : String) : String :=
  String.mk (((s.data.dropWhile Char.isWhitespace).reverse.dropWhile Char.isWhitespace).reverse)

/-- Split a character list at every occurrence of the (nonempty) literal
separator, leftmost-first and non-overlapping (the semantics of Python
`str.split`/`re.split` on an escaped literal).  The fuel argument bounds
the scan length; it starts at the list length and never runs out. -/
def splitAux (sep : List Char) : Nat → List Char → List Char → List (List Char)
  | _, [], acc => [acc.reverse]
  | 0, rem, acc => [acc.reverse ++ rem]
  | fuel + 1, c :: rest, acc =>
    if startsWithChars sep (c :: rest) then
      acc.reverse :: splitAux sep fuel (List.drop (sep.length - 1) rest) []
    else
      splitAux sep fuel rest (c :: acc)

/-- String-level split on a literal separator. -/
def splitStrOn (sep text : String) : List String :=
  if sep = "" then [text]
  else (splitAux sep.data text.data.length text.data []).map String.mk

/-- Embeds the document cleaning step of `load_and_chunk`
(`rag_utils.py` line 37):
`"\n".join([ln.strip() for ln in raw.splitlines() if ln.strip()])`,
for newline-separated text. -/
def cleanText (raw : String) : String :=
  String.intercalate "\n" (((splitStrOn "\n" raw).map stripStr).filter (fun l => l ≠ ""))

/-! ## Prompt template (`rag_utils.py` lines 101-121)

`prompt_tpl` is a `PromptTemplate` over `{context}` and `{question}`;
its `format` is pure substitution, embedded as string concatenation.
The template text is reproduced exactly; the part before `Context:` is
written as a concatenation around the ignorance instruction it contains. -/

/-- The literal refusal sentence the template instructs the model to say. -/
def ignoranceInstruction : String := "I don't have that information in my documents."

/-- Template text before the ignorance instruction. -/
def tplHead : String := "\nYou are a friendly and helpful travel assistant. Answer the user's question using ONLY the provided context.\n\nGuidelines:\n• Be concise but informative\n• If the answer is in the context, provide it directly\n• If you don't know or it's not in the context, say \""

/-- Template text between the ignorance instruction and the `{context}` slot. -/
def tplAfterIgnorance : String := "\"\n• Use a warm, helpful tone\n• End with a brief follow-up like \"Is there anything else you'd like to know?\"\n\nContext:\n"

/-- Template text between the `{context}` slot and the `{question}` slot. -/
def tplMidQ : String := "\n\nQuestion:\n"

/-- Template text after the `{question}` slot. -/
def tplPost : String := "\n\nAnswer:\n"

/-- `prompt_tpl.format(context=..., question=...)`: substitution of both
variables into the fixed template. -/
def prompt_tpl_format (context question : String) : String :=
  tplHead ++ ignoranceInstruction ++ tplAfterIgnorance ++ context ++ tplMidQ ++ question ++ tplPost

/-! ## Conversation model (`chatbot.py`) -/

/-- Message role (`HumanMessage` / `AIMessage`). -/
inductive Role where
  | user
  | assistant
  deriving DecidableEq, Repr

/-- One history entry. -/
structure Msg where
  role : Role
  content : String
  deriving DecidableEq, Repr

/-- A retrieved document: page content plus its `source` metadata field. -/
structure Doc where
  page_content : String
  source : String
  deriving DecidableEq, Repr

/-- `chatbot.py` line 957. -/
def MAX_HISTORY_TURNS : Nat := 10

/-- The fixed placeholder recorded when generation fails (`chatbot.py` line 1097). -/
def errorPlaceholder : String := "I encountered an error. Please check your API key or try again."

/-- Session state relevant to a query turn (`st.session_state.history`,
`st.session_state.last_docs`). -/
structure SessionState where
  history : List Msg
  last_docs : List Doc
  deriving DecidableEq, Repr

/-- History trimming (`chatbot.py` lines 1040-1041):
`if len(h) > MAX_HISTORY_TURNS * 2: h = h[-MAX_HISTORY_TURNS * 2:]`. -/
def trimHistory (h : List Msg) : List Msg :=
  if h.length > MAX_HISTORY_TURNS * 2 then h.drop (h.length - MAX_HISTORY_TURNS * 2) else h

/-- One streamed fragment: `chunk.content` may be `None` (`chunk.content or ""`). -/
def fragText : Option String → String
  | none => ""
  | some s => s

/-- Accumulation of streamed fragments (`collected_response += chunk.content or ""`). -/
def collectStream (fs : List (Option String)) : String :=
  fs.foldl (fun acc f => acc ++ fragText f) ""

/-- Outcome of the streaming generation call (`llm.stream`): either the whole
fragment sequence arrives, or an exception is raised after some fragments. -/
inductive GenOutcome where
  | ok (fragments : List (Option String))
  | failAfter (fragments : List (Option String))
  deriving DecidableEq, Repr

/-- The assistant text recorded for a generation outcome: on success the
accumulated stream, on exception the fixed placeholder (the accumulated
partial text is overwritten, `chatbot.py` line 1097). -/
def genCollected : GenOutcome → String
  | .ok fs => collectStream fs
  | .failAfter _ => errorPlaceholder

/-- Observable result of one query turn. -/
structure TurnResult where
  state : SessionState
  full_prompt : String
  retrieval_warning : Bool
  api_error : Bool
  deriving Repr

/-- One query turn (`chatbot.py` lines 1025-1101): append the user message,
trim, retrieve (exception ⇒ empty context, empty `last_docs`, warning),
compose the prompt, stream the answer (exception ⇒ placeholder), append
exactly one assistant message.  The retrieval outcome and the generation
outcome are passed in explicitly, standing for the external calls. -/
def queryTurn (st : SessionState) (user_input : String)
    (retrieval : Except String (List Doc)) (gen : GenOutcome) : TurnResult :=
  let h1 := st.history ++ [⟨Role.user, user_input⟩]
  let h2 := trimHistory h1
  let res :=
    match retrieval with
    | .ok docs => (String.intercalate "\n\n" (docs.map Doc.page_content), docs, false)
    | .error _ => ("", ([] : List Doc), true)
  let full_prompt := prompt_tpl_format res.1 user_input
  let collected := genCollected gen
  { state := { history := h2 ++ [⟨Role.assistant, collected⟩], last_docs := res.2.1 },
    full_prompt := full_prompt,
    retrieval_warning := res.2.2,
    api_error := match gen with | .ok _ => false | .failAfter _ => true }

/-- Prompt composition as wired in the controller (`chatbot.py` lines 1046
and 1054): context is the retrieved chunk texts joined by a blank line. -/
def composePrompt (chunkTexts : List String) (question : String) : String :=
  prompt_tpl_format (String.intercalate "\n\n" chunkTexts) question

/-! ## Text splitter

`load_and_chunk` delegates splitting to
`langchain_text_splitters.RecursiveCharacterTextSplitter(chunk_size, chunk_overlap)`
with the library defaults: separators `["\n\n", "\n", " ", ""]`,
`keep_separator=True` (separator kept at the start of the following split),
`strip_whitespace=True`, length measured in characters.  The library
algorithm is reproduced here: `splitWithSep` embeds
`_split_text_with_regex`, `mergeStep`/`popWhile`/`mergeSplits` embed
`_merge_splits`, `chooseSep`+`processSplits`+`splitTextCore` embed the
recursive `_split_text`; `splitTextCore` carries fuel bounding the
recursion depth (the separator list shrinks strictly at each recursive
call, so the initial fuel `|separators| + 1` is never exhausted). -/

/-- Join the pending splits and strip surrounding whitespace
(`_join_docs`); `none` when the stripped text is empty. -/
def joinDocs (sep : String) (docs : List String) : Option String :=
  let text := stripStr (String.intercalate sep docs)
  if text = "" then none else some text

/-- The overlap carry-over loop of `_merge_splits`: pop leading splits
while the running total exceeds `chunk_overlap`, or while keeping them
would push the next chunk past `chunk_size`. -/
def popWhile (cs co sepLen newLen : Int) : List String → Int → List String × Int
  | [], total => ([], total)
  | d :: rest, total =>
    if total > co ∨ (total + newLen + (if (d :: rest).length > 0 then sepLen else 0) > cs ∧ total > 0) then
      popWhile cs co sepLen newLen rest (total - ((d.length : Int) + (if rest.length > 0 then sepLen else 0)))
    else (d :: rest, total)

/-- Accumulated state of `_merge_splits`: emitted docs, pending splits, running length. -/
structure MergeState where
  docs : List String
  current : List String
  total : Int

/-- `current_doc.append(d); total += len + (sep if len(current_doc) > 1 else 0)`. -/
def appendCur (sepLen : Int) (st : MergeState) (d : String) : MergeState :=
  let cur := st.current ++ [d]
  { st with current := cur,
            total := st.total + (d.length : Int) + (if cur.length > 1 then sepLen else 0) }

/-- One iteration of the `for d in splits` loop of `_merge_splits`. -/
def mergeStep (cs co sepLen : Int) (sep : String) (st : MergeState) (d : String) : MergeState :=
  let len : Int := (d.length : Int)
  let st1 :=
    if st.total + len + (if st.current.length > 0 then sepLen else 0) > cs then
      if st.current.length > 0 then
        let popped := popWhile cs co sepLen len st.current st.total
        { docs := st.docs ++ (joinDocs sep st.current).toList,
          current := popped.1, total := popped.2 }
      else st
    else st
  appendCur sepLen st1 d

/-- `_merge_splits(splits, separator)`. -/
def mergeSplits (cs co : Nat) (sep : String) (splits : List String) : List String :=
  let st := splits.foldl (mergeStep (cs : Int) (co : Int) ((sep.length : Nat) : Int) sep) ⟨[], [], 0⟩
  st.docs ++ (joinDocs sep st.current).toList

/-- `_split_text_with_regex(text, separator, keep_separator=True)`: split on
the literal separator, re-attach the separator to the front of each
following piece, drop empty pieces; the empty separator splits into
single characters. -/
def splitWithSep (sep text : String) : List String :=
  let splits :=
    if sep = "" then text.data.map (fun c => String.mk [c])
    else
      match splitStrOn sep text with
      | [] => []
      | p :: ps => p :: ps.map (fun q => sep ++ q)
  splits.filter (fun s => s ≠ "")

/-- Separator choice at the head of `_split_text`: the first separator that
is empty or occurs in the text wins, together with the remaining
separators; defaults to the last separator with no remainder. -/
def chooseSep (text dflt : String) : List String → String × List String
  | [] => (dflt, [])
  | s :: rest =>
    if s = "" then ("", [])
    else if strOccurs s text then (s, rest) else chooseSep text dflt rest

/-- The split-processing loop of `_split_text`: short splits accumulate and
are merged with overlap; a split at least `chunk_size` long first flushes
the accumulated merge, then is recursed on (when finer separators remain)
or emitted whole.  `goods` holds the accumulated short splits in reverse. -/
def processSplits (cs : Nat) (merge : List String → List String) (hasNew : Bool)
    (recurse : String → List String) : List String → List String → List String
  | goods, [] => if goods.isEmpty then [] else merge goods.reverse
  | goods, s :: rest =>
    if s.length < cs then processSplits cs merge hasNew recurse (s :: goods) rest
    else
      (if goods.isEmpty then [] else merge goods.reverse) ++
      (if hasNew then recurse s else [s]) ++
      processSplits cs merge hasNew recurse [] rest

/-- `_split_text(text, separators)`, by fuel on the recursion depth.
`keep_separator=True` makes the merge separator the empty string. -/
def splitTextCore (cs co : Nat) : Nat → List String → String → List String
  | 0, _, _ => []
  | fuel + 1, seps, text =>
    let dflt := seps.getLastD ""
    let chosen := chooseSep text dflt seps
    let splits := splitWithSep chosen.1 text
    processSplits cs (mergeSplits cs co "") (!chosen.2.isEmpty)
      (splitTextCore cs co fuel chosen.2) [] splits

/-- Default separator list of `RecursiveCharacterTextSplitter`. -/
def defaultSeparators : List String := ["\n\n", "\n", " ", ""]

/-- `RecursiveCharacterTextSplitter(chunk_size, chunk_overlap).split_text(text)`. -/
def split_text (cs co : Nat) (text : String) : List String :=
  splitTextCore cs co (defaultSeparators.length + 1) defaultSeparators text

/-! ## Corpus loading (`rag_utils.py` lines 14-54)

File-system reads are passed in explicitly: `load_and_chunk` receives, for
each `.txt` file in glob order, its name and either its raw content or a
read failure.  Warnings stand for the `print` on a failed read. -/

/-- Phase 1 of `load_and_chunk` (lines 29-39): per readable file, the
cleaned text paired with its `{"source": fp.name}` metadata (modelled by
the name); unreadable files are skipped with a warning. -/
def readDocs : List (String × Except String String) → List (String × String) × List String
  | [] => ([], [])
  | (name, res) :: rest =>
    let acc := readDocs rest
    match res with
    | .ok raw => ((cleanText raw, name) :: acc.1, acc.2)
    | .error e => (acc.1, ("Could not read " ++ name ++ ": " ++ e) :: acc.2)

/-- Phase 2 of `load_and_chunk` (lines 47-51): split every cleaned text,
pairing each chunk with its document's metadata. -/
def chunkDocs (cs ov : Nat) : List (String × String) → List String × List String
  | [] => ([], [])
  | (txt, meta) :: rest =>
    let acc := chunkDocs cs ov rest
    ((split_text cs ov txt) ++ acc.1, (split_text cs ov txt).map (fun _ => meta) ++ acc.2)

/-- Result of `load_and_chunk`: the parallel chunk and metadata lists,
plus the logged warnings. -/
structure LoadResult where
  chunks : List String
  metas : List String
  warnings : List String
  deriving DecidableEq, Repr

/-- `load_and_chunk(folder, chunk_size, overlap)` over an explicit file
listing. -/
def load_and_chunk (files : List (String × Except String String))
    (chunk_size overlap : Nat) : LoadResult :=
  let rd := readDocs files
  let ck := chunkDocs chunk_size overlap rd.1
  { chunks := ck.1, metas := ck.2, warnings := rd.2 }

/-! ## Theorems -/

/-- C7: for every question and every ordered sequence of chunk texts
(including the empty one), prompt composition is total pure string
assembly: it joins the chunk texts in order separated by a blank line as
the context, and the result contains the question verbatim and the fixed
ignorance instruction, even when the context is empty. -/
theorem C7_compose_prompt_total (question : String) (chunkTexts : List String) :
    composePrompt chunkTexts question
      = prompt_tpl_format (String.intercalate "\n\n" chunkTexts) question
    ∧ (∃ a b : String, composePrompt chunkTexts question = a ++ question ++ b)
    ∧ (∃ a b : String, composePrompt chunkTexts question = a ++ ignoranceInstruction ++ b)
    ∧ composePrompt [] question = prompt_tpl_format "" question := by
  refine ⟨rfl, ⟨?_, ?_, ?_⟩, ⟨?_, ?_, ?_⟩, rfl⟩
  · exact tplHead ++ ignoranceInstruction ++ tplAfterIgnorance
      ++ String.intercalate "\n\n" chunkTexts ++ tplMidQ
  · exact tplPost
  · rfl
  · exact tplHead
  · exact tplAfterIgnorance ++ String.intercalate "\n\n" chunkTexts
      ++ tplMidQ ++ question ++ tplPost
  · simp [composePrompt, prompt_tpl_format, String.append_assoc]

/-- C3: when the streaming generation call raises, the turn appends exactly
one new assistant-role entry — the fixed error placeholder — to the
trimmed history; the turn function stays total, so the next query
proceeds normally. -/
theorem C3_generation_failure_single_append (st : SessionState) (u : String)
    (retrieval : Except String (List Doc)) (fs : List (Option String)) :
    (queryTurn st u retrieval (.failAfter fs)).state.history
      = trimHistory (st.history ++ [⟨Role.user, u⟩]) ++ [⟨Role.assistant, errorPlaceholder⟩]
    ∧ (queryTurn st u retrieval (.failAfter fs)).state.history.length
      = (trimHistory (st.history ++ [⟨Role.user, u⟩])).length + 1 := by
  cases retrieval <;> simp [queryTurn, genCollected]

/-- C10: when the streaming generation call raises after some fragments were
already received, none of the partially accumulated text reaches the
history: the turn's outcome is identical to receiving no fragments at
all, and the recorded assistant entry is exactly the fixed placeholder. -/
theorem C10_partial_stream_discarded (st : SessionState) (u : String)
    (retrieval : Except String (List Doc)) (fs : List (Option String)) :
    queryTurn st u retrieval (.failAfter fs) = queryTurn st u retrieval (.failAfter [])
    ∧ (queryTurn st u retrieval (.failAfter fs)).state.history.getLast?
      = some ⟨Role.assistant, errorPlaceholder⟩ := by
  cases retrieval <;> simp [queryTurn, genCollected]

/-- C6: when the index query raises, the turn still proceeds with empty
context: the composed prompt uses the empty context, the last-retrieved
documents become the empty list, a warning is surfaced, and the turn
completes with its assistant append as usual. -/
theorem C6_retrieval_failure_graceful (st : SessionState) (u e : String) (gen : GenOutcome) :
    (queryTurn st u (.error e) gen).full_prompt = prompt_tpl_format "" u
    ∧ (queryTurn st u (.error e) gen).state.last_docs = []
    ∧ (queryTurn st u (.error e) gen).retrieval_warning = true
    ∧ (queryTurn st u (.error e) gen).state.history
      = trimHistory (st.history ++ [⟨Role.user, u⟩]) ++ [⟨Role.assistant, genCollected gen⟩] := by
  simp [queryTurn]

/-- Eleven completed query turns starting from the fresh session. -/
def elevenTurns : SessionState :=
  (List.range 11).foldl
    (fun st _ => (queryTurn st "q" (Except.ok []) (GenOutcome.ok [some "a"])).state)
    ⟨[], []⟩

/-- C1 counterexample: at the end of the 11th completed query turn (after
the assistant reply is appended) the history holds 21 entries, exceeding
2×`MAX_HISTORY_TURNS` = 20 — so the claimed bound does not hold at the
end of every completed query turn. -/
theorem C1_counterexample :
    elevenTurns.history.length = 21
    ∧ ¬ elevenTurns.history.length ≤ MAX_HISTORY_TURNS * 2 := by
  decide

/-- Trimming bounds the history length by 2×`MAX_HISTORY_TURNS`. -/
theorem trimHistory_length_le (h : List Msg) :
    (trimHistory h).length ≤ MAX_HISTORY_TURNS * 2 := by
  unfold trimHistory
  split
  · rename_i hgt
    rw [List.length_drop]
    omega
  · rename_i hle
    omega

/-- Keeping the last `n` elements commutes with appending: retaining the
last `n` of `a` before appending `b` yields the same last-`n` suffix. -/
theorem drop_to_last_append (n : Nat) (a b : List Msg) :
    ((a.drop (a.length - n)) ++ b).drop (((a.drop (a.length - n)) ++ b).length - n)
      = (a ++ b).drop ((a ++ b).length - n) := by
  rcases le_or_lt a.length n with hle | hgt
  · have h0 : a.length - n = 0 := Nat.sub_eq_zero_of_le hle
    simp [h0]
  · have hA : (a.drop (a.length - n)).length = n := by
      rw [List.length_drop]; omega
    simp only [List.drop_append_eq_append_drop, List.drop_drop, List.length_append, hA]
    congr 1
    · congr 1
      omega
    · congr 1
      omega

/-- Folding "append one message, then trim" keeps exactly the last
2×`MAX_HISTORY_TURNS` messages, in order. -/
theorem foldl_trimHistory (ms : List Msg) : ∀ h : List Msg,
    h.length ≤ MAX_HISTORY_TURNS * 2 →
    ms.foldl (fun acc m => trimHistory (acc ++ [m])) h
      = (h ++ ms).drop ((h ++ ms).length - MAX_HISTORY_TURNS * 2) := by
  induction ms with
  | nil =>
    intro h hh
    rw [List.append_nil]
    have h0 : h.length - MAX_HISTORY_TURNS * 2 = 0 := by omega
    simp only [List.foldl_nil, h0, List.drop_zero]
  | cons m ms ih =>
    intro h hh
    rw [List.foldl_cons]
    have hstep : trimHistory (h ++ [m])
        = (h ++ [m]).drop ((h ++ [m]).length - MAX_HISTORY_TURNS * 2) := by
      unfold trimHistory
      split
      · rfl
      · rename_i hle
        have h0 : (h ++ [m]).length - MAX_HISTORY_TURNS * 2 = 0 := by omega
        rw [h0, List.drop_zero]
    rw [hstep, ih _ (by rw [← hstep]; exact trimHistory_length_le _)]
    rw [drop_to_last_append (MAX_HISTORY_TURNS * 2) (h ++ [m]) ms]
    simp

/-- C1 amended: after the trimming step the history length is at most
2×`MAX_HISTORY_TURNS`; appending 25 messages each followed by the
trimming step retains exactly the most recent 20 in original order; but
at the end of a completed query turn — after the assistant reply is
appended — the bound is 2×`MAX_HISTORY_TURNS` + 1, not
2×`MAX_HISTORY_TURNS` (the assistant append follows the trim). -/
theorem C1_amended (ms : List Msg) (hms : ms.length = 25) :
    (∀ h : List Msg, (trimHistory h).length ≤ MAX_HISTORY_TURNS * 2)
    ∧ ms.foldl (fun acc m => trimHistory (acc ++ [m])) [] = ms.drop 5
    ∧ (∀ (st : SessionState) (u : String) (retrieval : Except String (List Doc))
        (gen : GenOutcome),
        (queryTurn st u retrieval gen).state.history.length
          ≤ MAX_HISTORY_TURNS * 2 + 1) := by
  refine ⟨trimHistory_length_le, ?_, ?_⟩
  · rw [foldl_trimHistory ms [] (by simp)]
    simp [hms, MAX_HISTORY_TURNS]
  · intro st u retrieval gen
    have hh : (queryTurn st u retrieval gen).state.history
        = trimHistory (st.history ++ [⟨Role.user, u⟩])
          ++ [⟨Role.assistant, genCollected gen⟩] := by
      cases retrieval <;> simp [queryTurn]
    rw [hh, List.length_append]
    have := trimHistory_length_le (st.history ++ [⟨Role.user, u⟩])
    simp
    omega

/-- C1 amended, witnessed on 25 concrete distinct messages: the hypotheses
hold and the fold retains exactly the last 20 in order. -/
theorem C1_amended_witness :
    ((List.range 25).map (fun i => (⟨Role.user, toString i⟩ : Msg))).foldl
        (fun acc m => trimHistory (acc ++ [m])) []
      = ((List.range 25).map (fun i => (⟨Role.user, toString i⟩ : Msg))).drop 5 :=
  (C1_amended ((List.range 25).map (fun i => (⟨Role.user, toString i⟩ : Msg)))
    (by simp)).2.1

/-- Whether a file listing entry was read successfully. -/
def readOkB (f : String × Except String String) : Bool :=
  match f.2 with
  | .ok _ => true
  | .error _ => false

/-- The two chunking outputs are parallel: one metadata record per chunk. -/
theorem chunkDocs_lengths (cs ov : Nat) (docs : List (String × String)) :
    (chunkDocs cs ov docs).1.length = (chunkDocs cs ov docs).2.length := by
  induction docs with
  | nil => rfl
  | cons d rest ih =>
    obtain ⟨txt, meta⟩ := d
    simp [chunkDocs, ih]

/-- Every emitted metadata value names a document of the cleaned corpus. -/
theorem chunkDocs_metas_mem (cs ov : Nat) (docs : List (String × String)) (m : String)
    (hm : m ∈ (chunkDocs cs ov docs).2) : ∃ txt, (txt, m) ∈ docs := by
  induction docs with
  | nil => simp [chunkDocs] at hm
  | cons d rest ih =>
    obtain ⟨txt, meta⟩ := d
    simp only [chunkDocs, List.mem_append, List.mem_map] at hm
    rcases hm with ⟨c, _, rfl⟩ | hm
    · exact ⟨txt, List.mem_cons_self _ _⟩
    · obtain ⟨txt', h'⟩ := ih hm
      exact ⟨txt', List.mem_cons_of_mem _ h'⟩

/-- Every cleaned document of phase 1 comes from a successfully read input
file, and carries that file's name. -/
theorem readDocs_mem (files : List (String × Except String String)) (t name : String)
    (h : (t, name) ∈ (readDocs files).1) :
    ∃ raw, (name, Except.ok raw) ∈ files ∧ t = cleanText raw := by
  induction files with
  | nil => simp [readDocs] at h
  | cons f rest ih =>
    obtain ⟨n, res⟩ := f
    cases res with
    | ok raw =>
      simp only [readDocs, List.mem_cons] at h
      rcases h with h | h
      · obtain ⟨h1, h2⟩ := Prod.mk.injEq .. ▸ h
        exact ⟨raw, by simp [← h2], by simp [h1]⟩
      · obtain ⟨raw', hmem, ht⟩ := ih h
        exact ⟨raw', List.mem_cons_of_mem _ hmem, ht⟩
    | error e =>
      simp only [readDocs] at h
      obtain ⟨raw', hmem, ht⟩ := ih h
      exact ⟨raw', List.mem_cons_of_mem _ hmem, ht⟩

/-- C4: `load_and_chunk` returns parallel lists — as many metadata records
as chunks — and every metadata source field is the name of one of the
(successfully read) input files. -/
theorem C4_parallel_lists (files : List (String × Except String String)) (cs ov : Nat) :
    (load_and_chunk files cs ov).chunks.length = (load_and_chunk files cs ov).metas.length
    ∧ ∀ m ∈ (load_and_chunk files cs ov).metas, ∃ raw, (m, Except.ok raw) ∈ files := by
  constructor
  · exact chunkDocs_lengths cs ov (readDocs files).1
  · intro m hm
    obtain ⟨txt, hmem⟩ := chunkDocs_metas_mem cs ov (readDocs files).1 m hm
    obtain ⟨raw, hfile, _⟩ := readDocs_mem files txt m hmem
    exact ⟨raw, hfile⟩

/-- Phase 1 ignores unreadable files: filtering them away first changes
nothing about the cleaned corpus. -/
theorem readDocs_filter (files : List (String × Except String String)) :
    (readDocs (files.filter readOkB)).1 = (readDocs files).1 := by
  induction files with
  | nil => rfl
  | cons f rest ih =>
    obtain ⟨n, res⟩ := f
    cases res with
    | ok raw => simp [readDocs, readOkB, List.filter, ih]
    | error e => simp [readDocs, readOkB, List.filter, ih]

/-- Every unreadable file leaves its warning in phase 1's log. -/
theorem readDocs_warning (files : List (String × Except String String)) (name e : String)
    (h : (name, Except.error e) ∈ files) :
    ("Could not read " ++ name ++ ": " ++ e) ∈ (readDocs files).2 := by
  induction files with
  | nil => simp at h
  | cons f rest ih =>
    obtain ⟨n, res⟩ := f
    rcases List.mem_cons.mp h with heq | hmem
    · obtain ⟨h1, h2⟩ := Prod.mk.injEq .. ▸ heq
      subst h1
      rw [← h2]
      simp [readDocs]
    · cases res with
      | ok raw => simpa [readDocs] using ih hmem
      | error e' =>
        simp only [readDocs]
        exact List.mem_cons_of_mem _ (ih hmem)

/-- C8: a file whose read fails is skipped with a logged warning and the
rest of the corpus is loaded: the chunk and metadata lists are exactly
those of the successfully read files. -/
theorem C8_unreadable_file_skipped (files : List (String × Except String String))
    (cs ov : Nat) (name e : String) (h : (name, Except.error e) ∈ files) :
    ("Could not read " ++ name ++ ": " ++ e) ∈ (load_and_chunk files cs ov).warnings
    ∧ (load_and_chunk files cs ov).chunks
        = (load_and_chunk (files.filter readOkB) cs ov).chunks
    ∧ (load_and_chunk files cs ov).metas
        = (load_and_chunk (files.filter readOkB) cs ov).metas := by
  refine ⟨readDocs_warning files name e h, ?_, ?_⟩
  · simp [load_and_chunk, readDocs_filter]
  · simp [load_and_chunk, readDocs_filter]

/-- C8 witnessed on a concrete two-file corpus with one failing read: the
warning is logged and chunks/metas come from the readable file only. -/
theorem C8_unreadable_file_skipped_witness :
    ("Could not read " ++ "bad.txt" ++ ": " ++ "io error")
        ∈ (load_and_chunk [("a.txt", Except.ok "hello"), ("bad.txt", Except.error "io error")] 500 50).warnings
    ∧ (load_and_chunk [("a.txt", Except.ok "hello"), ("bad.txt", Except.error "io error")] 500 50).chunks
        = (load_and_chunk ([("a.txt", Except.ok "hello"), ("bad.txt", Except.error "io error")].filter readOkB) 500 50).chunks
    ∧ (load_and_chunk [("a.txt", Except.ok "hello"), ("bad.txt", Except.error "io error")] 500 50).metas
        = (load_and_chunk ([("a.txt", Except.ok "hello"), ("bad.txt", Except.error "io error")].filter readOkB) 500 50).metas :=
  C8_unreadable_file_skipped
    [("a.txt", Except.ok "hello"), ("bad.txt", Except.error "io error")]
    500 50 "bad.txt" "io error" (by simp)

/-- The number of characters two consecutive chunks share at their
boundary, as the claim words it: the largest `k` such that the last `k`
characters of the first chunk equal the first `k` characters of the
second. -/
def sharedBoundary (a b : String) : Nat :=
  ((List.range (min a.length b.length + 1)).filter
    (fun k => a.data.drop (a.data.length - k) == b.data.take k)).foldr max 0

/-- C2 counterexample: for the source text `"aaaa bbbb"` (longer than
`chunk_size` = 5) with `overlap` = 2 < 5, `load_and_chunk` produces the
consecutive chunks `"aaaa"` and `"bbbb"`, which share 0 characters at
their boundary, not exactly 2 — the splitter prefers the space boundary
and the carried-over split is dropped entirely by the overlap loop. -/
theorem C2_counterexample :
    2 < 5
    ∧ (cleanText "aaaa bbbb").length > 5
    ∧ (load_and_chunk [("doc.txt", Except.ok "aaaa bbbb")] 5 2).chunks = ["aaaa", "bbbb"]
    ∧ sharedBoundary "aaaa" "bbbb" = 0
    ∧ sharedBoundary "aaaa" "bbbb" ≠ 2 := by
  decide

/-- Total character count of a list of splits, over the integers. -/
def sumLens (l : List String) : Int := (l.map (fun s => (s.length : Int))).sum

theorem sumLens_nonneg (l : List String) : 0 ≤ sumLens l := by
  refine List.sum_nonneg ?_
  intro x hx
  obtain ⟨s, _, rfl⟩ := List.mem_map.mp hx
  exact Int.natCast_nonneg _

theorem sumLens_cons (d : String) (l : List String) :
    sumLens (d :: l) = (d.length : Int) + sumLens l := by
  simp [sumLens]

theorem sumLens_append (a b : List String) :
    sumLens (a ++ b) = sumLens a + sumLens b := by
  simp [sumLens]

/-- Stripping never lengthens a string. -/
theorem stripStr_length_le (s : String) : (stripStr s).length ≤ s.length := by
  unfold stripStr
  calc ((String.mk (((s.data.dropWhile Char.isWhitespace).reverse.dropWhile
          Char.isWhitespace).reverse))).length
      = ((s.data.dropWhile Char.isWhitespace).reverse.dropWhile Char.isWhitespace).length := by
        simp
    _ ≤ (s.data.dropWhile Char.isWhitespace).length := by
        have := (List.dropWhile_sublist (l := (s.data.dropWhile Char.isWhitespace).reverse)
          Char.isWhitespace).length_le
        simpa using this
    _ ≤ s.data.length := (List.dropWhile_sublist _).length_le

theorem intercalate_go_length (l : List String) : ∀ acc : String,
    (String.intercalate.go acc "" l).length = acc.length + (l.map String.length).sum := by
  induction l with
  | nil => intro acc; simp [String.intercalate.go]
  | cons a as ih =>
    intro acc
    rw [String.intercalate.go, ih]
    rw [List.map_cons, List.sum_cons]
    simp [String.length_append]
    omega

/-- Joining splits on the empty separator has the summed length. -/
theorem intercalate_empty_length (l : List String) :
    (String.intercalate "" l).length = (l.map String.length).sum := by
  cases l with
  | nil => rfl
  | cons a as =>
    rw [String.intercalate, intercalate_go_length, List.map_cons, List.sum_cons]

theorem sumLens_eq_cast (l : List String) :
    sumLens l = (((l.map String.length).sum : Nat) : Int) := by
  induction l with
  | nil => rfl
  | cons a as ih =>
    rw [sumLens_cons, ih]
    push_cast [List.map_cons, List.sum_cons]
    ring

/-- A doc emitted by `joinDocs ""` is no longer than the pending total. -/
theorem joinDocs_length (cur : List String) (doc : String)
    (h : joinDocs "" cur = some doc) : (doc.length : Int) ≤ sumLens cur := by
  have hdoc : doc = stripStr (String.intercalate "" cur) := by
    by_cases hc : stripStr (String.intercalate "" cur) = ""
    · simp [joinDocs, hc] at h
    · have := h
      simp only [joinDocs] at this
      rw [if_neg hc] at this
      injection this with h'
      exact h'.symm
  subst hdoc
  have h1 := stripStr_length_le (String.intercalate "" cur)
  have h2 := intercalate_empty_length cur
  have h3 := sumLens_eq_cast cur
  omega

/-- The overlap carry-over loop preserves the running-total bookkeeping and
stops only when the next chunk fits (or nothing is pending). -/
theorem popWhile_spec (cs co len : Int) : ∀ (cur : List String) (total : Int),
    total = sumLens cur →
    (popWhile cs co 0 len cur total).2 = sumLens (popWhile cs co 0 len cur total).1
    ∧ ((popWhile cs co 0 len cur total).2 + len ≤ cs
       ∨ (popWhile cs co 0 len cur total).2 ≤ 0) := by
  intro cur
  induction cur with
  | nil =>
    intro total htot
    simp only [popWhile]
    refine ⟨htot, ?_⟩
    right
    rw [htot]
    simp [sumLens]
  | cons d rest ih =>
    intro total htot
    rw [popWhile]
    simp only [ite_self]
    by_cases hcond : total > co ∨ (total + len + 0 > cs ∧ total > 0)
    · rw [if_pos hcond]
      refine ih (total - ((d.length : Int) + 0)) ?_
      rw [htot, sumLens_cons]
      ring
    · rw [if_neg hcond]
      refine ⟨htot, ?_⟩
      push_neg at hcond
      omega

/-- Invariant carried through `_merge_splits`: the running total counts the
pending splits, stays within `chunk_size`, and every emitted doc fits. -/
def MergeInv (cs : Int) (st : MergeState) : Prop :=
  st.total = sumLens st.current ∧ st.total ≤ cs ∧ ∀ d ∈ st.docs, (d.length : Int) ≤ cs

/-- `appendCur` with zero separator length preserves the invariant as long
as the new total stays within `chunk_size`. -/
theorem appendCur_inv (cs : Int) (st : MergeState) (d : String)
    (htot : st.total = sumLens st.current)
    (hfits : st.total + (d.length : Int) ≤ cs)
    (hdocs : ∀ x ∈ st.docs, (x.length : Int) ≤ cs) :
    MergeInv cs (appendCur 0 st d) := by
  refine ⟨?_, ?_, ?_⟩
  · simp only [appendCur, ite_self]
    rw [htot, sumLens_append, sumLens_cons]
    simp [sumLens]
  · simp only [appendCur, ite_self]
    omega
  · intro x hx
    simp only [appendCur] at hx
    exact hdocs x hx

theorem mergeStep_inv (cs co : Int) (st : MergeState) (d : String)
    (hd : (d.length : Int) < cs) (h : MergeInv cs st) :
    MergeInv cs (mergeStep cs co 0 "" st d) := by
  obtain ⟨htot, hle, hdocs⟩ := h
  rw [mergeStep]
  simp only [ite_self]
  by_cases hflush : st.total + (d.length : Int) + 0 > cs
  · rw [if_pos hflush]
    by_cases hne : st.current.length > 0
    · rw [if_pos hne]
      have hps := popWhile_spec cs co (d.length : Int) st.current st.total htot
      have hnn : 0 ≤ (popWhile cs co 0 (d.length : Int) st.current st.total).2 := by
        rw [hps.1]; exact sumLens_nonneg _
      refine appendCur_inv cs _ d hps.1 ?_ ?_
      · show (popWhile cs co 0 ((d.length : Int)) st.current st.total).2 + (d.length : Int) ≤ cs
        rcases hps.2 with hfit | hzero
        · exact hfit
        · omega
      · intro x hx
        rcases List.mem_append.mp hx with hx | hx
        · exact hdocs x hx
        · have hj : joinDocs "" st.current = some x := by
            cases hcase : joinDocs "" st.current with
            | none => rw [hcase] at hx; simp at hx
            | some y =>
              rw [hcase] at hx
              simp only [Option.toList_some, List.mem_singleton] at hx
              rw [hx]
          have := joinDocs_length st.current x hj
          omega
    · rw [if_neg hne]
      have hcur : st.current = [] := by
        cases hc : st.current with
        | nil => rfl
        | cons a l => rw [hc] at hne; simp at hne
      have h0 : st.total = 0 := by rw [htot, hcur]; simp [sumLens]
      exact appendCur_inv cs st d htot (by omega) hdocs
  · rw [if_neg hflush]
    exact appendCur_inv cs st d htot (by omega) hdocs

theorem mergeFold_inv (cs co : Int) : ∀ (splits : List String) (st : MergeState),
    MergeInv cs st → (∀ s ∈ splits, (s.length : Int) < cs) →
    MergeInv cs (splits.foldl (mergeStep cs co 0 "") st) := by
  intro splits
  induction splits with
  | nil => intro st h _; exact h
  | cons s rest ih =>
    intro st h hall
    rw [List.foldl_cons]
    exact ih _ (mergeStep_inv cs co st s (hall s (List.mem_cons_self _ _)) h)
      (fun x hx => hall x (List.mem_cons_of_mem _ hx))

/-- Every chunk produced by `_merge_splits` on short splits fits in
`chunk_size`. -/
theorem mergeSplits_bound (cs co : Nat) (splits : List String)
    (hall : ∀ s ∈ splits, s.length < cs) :
    ∀ doc ∈ mergeSplits cs co "" splits, doc.length ≤ cs := by
  intro doc hdoc
  have hsep : ((("" : String).length : Nat) : Int) = 0 := rfl
  unfold mergeSplits at hdoc
  rw [hsep] at hdoc
  have hinv : MergeInv (cs : Int) (splits.foldl (mergeStep (cs : Int) (co : Int) 0 "") ⟨[], [], 0⟩) := by
    refine mergeFold_inv (cs : Int) (co : Int) splits ⟨[], [], 0⟩ ?_ ?_
    · refine ⟨by simp [sumLens], by positivity, by simp⟩
    · intro s hs
      exact_mod_cast hall s hs
  obtain ⟨htot, hle, hdocs⟩ := hinv
  rcases List.mem_append.mp hdoc with hx | hx
  · exact_mod_cast hdocs doc hx
  · rcases Option.mem_toList.mp hx with hj
    have h1 := joinDocs_length _ doc hj
    have : (doc.length : Int) ≤ (cs : Int) := by omega
    exact_mod_cast this

/-- The split-processing loop keeps every emitted chunk within
`chunk_size`, given that merging short splits does, that recursing on an
oversized split does, and that oversized splits are only emitted whole at
the single-character level. -/
theorem processSplits_bound (cs : Nat) (merge : List String → List String) (hasNew : Bool)
    (recurse : String → List String)
    (hmerge : ∀ gs, (∀ g ∈ gs, g.length < cs) → ∀ d ∈ merge gs, d.length ≤ cs)
    (hrec : hasNew = true → ∀ s, ∀ d ∈ recurse s, d.length ≤ cs) :
    ∀ (splits goods : List String),
    (∀ s ∈ splits, cs ≤ s.length → hasNew = false → s.length ≤ cs) →
    (∀ g ∈ goods, g.length < cs) →
    ∀ d ∈ processSplits cs merge hasNew recurse goods splits, d.length ≤ cs := by
  intro splits
  induction splits with
  | nil =>
    intro goods _ hgoods d hd
    rw [processSplits] at hd
    by_cases hemp : goods.isEmpty
    · rw [if_pos hemp] at hd
      simp at hd
    · rw [if_neg hemp] at hd
      exact hmerge _ (fun g hg => hgoods g (List.mem_reverse.mp hg)) d hd
  | cons s rest ih =>
    intro goods hwhole hgoods d hd
    rw [processSplits] at hd
    by_cases hlt : s.length < cs
    · rw [if_pos hlt] at hd
      refine ih (s :: goods) (fun x hx h1 h2 => hwhole x (List.mem_cons_of_mem _ hx) h1 h2)
        ?_ d hd
      intro g hg
      rcases List.mem_cons.mp hg with rfl | hg
      · exact hlt
      · exact hgoods g hg
    · rw [if_neg hlt] at hd
      rcases List.mem_append.mp hd with hd | hd
      · rcases List.mem_append.mp hd with hd | hd
        · by_cases hemp : goods.isEmpty
          · rw [if_pos hemp] at hd; simp at hd
          · rw [if_neg hemp] at hd
            exact hmerge _ (fun g hg => hgoods g (List.mem_reverse.mp hg)) d hd
        · cases hnew : hasNew with
          | true =>
            rw [hnew] at hd
            simp only [if_pos] at hd
            exact hrec hnew s d (by simpa using hd)
          | false =>
            rw [hnew] at hd
            simp only [Bool.false_eq_true, if_neg, not_false_iff] at hd
            have : d = s := by simpa using hd
            subst this
            exact hwhole d (List.mem_cons_self _ _) (Nat.le_of_not_lt hlt) hnew
      · exact ih [] (fun x hx h1 h2 => hwhole x (List.mem_cons_of_mem _ hx) h1 h2)
          (by simp) d hd

/-- Separator choice: when the empty separator is among the candidates, the
choice either is the empty separator with no finer candidates, or keeps
the empty separator among the finer candidates. -/
theorem chooseSep_spec (text dflt : String) : ∀ seps : List String, "" ∈ seps →
    (chooseSep text dflt seps = ("", []))
    ∨ "" ∈ (chooseSep text dflt seps).2 := by
  intro seps
  induction seps with
  | nil => intro h; simp at h
  | cons s rest ih =>
    intro h
    rw [chooseSep]
    by_cases hs : s = ""
    · rw [if_pos hs]
      left
      rfl
    · rw [if_neg hs]
      have hrest : "" ∈ rest := by
        rcases List.mem_cons.mp h with heq | hm
        · exact absurd heq.symm hs
        · exact hm
      by_cases hocc : strOccurs s text
      · simp only [hocc, if_pos]
        right
        simpa using hrest
      · simp only [hocc, Bool.false_eq_true, if_neg, not_false_iff]
        exact ih hrest

/-- At the single-character level every split has length 1. -/
theorem splitWithSep_empty_len (text : String) :
    ∀ s ∈ splitWithSep "" text, s.length = 1 := by
  intro s hs
  simp only [splitWithSep, if_pos rfl] at hs
  have hs' := List.mem_filter.mp hs
  obtain ⟨c, _, rfl⟩ := List.mem_map.mp hs'.1
  rfl

/-- Every chunk emitted by the recursive splitter fits in `chunk_size`,
for any separator list containing the empty separator. -/
theorem splitTextCore_bound (cs co : Nat) (hcs : 1 ≤ cs) : ∀ (fuel : Nat)
    (seps : List String) (text : String), "" ∈ seps →
    ∀ d ∈ splitTextCore cs co fuel seps text, d.length ≤ cs := by
  intro fuel
  induction fuel with
  | zero => intro seps text _ d hd; simp [splitTextCore] at hd
  | succ fuel ih =>
    intro seps text hmem d hd
    rw [splitTextCore] at hd
    rcases chooseSep_spec text (seps.getLastD "") seps hmem with hch | hch
    · rw [hch] at hd
      refine processSplits_bound cs _ _ _ (fun gs hgs => mergeSplits_bound cs co gs hgs)
        ?_ _ [] ?_ (by simp) d hd
      · intro habs
        simp at habs
      · intro x hx _ _
        have := splitWithSep_empty_len text x hx
        omega
    · have hne : (chooseSep text (seps.getLastD "") seps).2 ≠ [] := by
        intro habs
        rw [habs] at hch
        simp at hch
      have hbool : (!(chooseSep text (seps.getLastD "") seps).2.isEmpty) = true := by
        cases hcase : (chooseSep text (seps.getLastD "") seps).2 with
        | nil => exact absurd hcase hne
        | cons a l => rfl
      rw [hbool] at hd
      refine processSplits_bound cs _ _ _ (fun gs hgs => mergeSplits_bound cs co gs hgs)
        ?_ _ [] ?_ (by simp) d hd
      · intro _ s x hx
        exact ih _ s hch x hx
      · intro x _ _ habs
        cases habs

/-- Every chunk of `split_text` fits in `chunk_size`. -/
theorem split_text_bound (cs co : Nat) (hcs : 1 ≤ cs) (text : String) :
    ∀ d ∈ split_text cs co text, d.length ≤ cs := by
  refine splitTextCore_bound cs co hcs _ defaultSeparators text ?_
  simp [defaultSeparators]

/-- Every chunk of phase 2 comes from splitting one of the documents. -/
theorem chunkDocs_chunks_mem (cs ov : Nat) (docs : List (String × String)) (c : String)
    (hc : c ∈ (chunkDocs cs ov docs).1) : ∃ p ∈ docs, c ∈ split_text cs ov p.1 := by
  induction docs with
  | nil => simp [chunkDocs] at hc
  | cons d rest ih =>
    obtain ⟨txt, meta⟩ := d
    simp only [chunkDocs, List.mem_append] at hc
    rcases hc with hc | hc
    · exact ⟨(txt, meta), List.mem_cons_self _ _, hc⟩
    · obtain ⟨p, hp, hcp⟩ := ih hc
      exact ⟨p, List.mem_cons_of_mem _ hp, hcp⟩

/-- C2 amended: for all chunking parameters with `overlap < chunk_size`,
every chunk produced by `load_and_chunk` is at most `chunk_size`
characters long; consecutive chunks do not in general share exactly
`overlap` characters at their boundary (the splitter prefers semantic
boundaries, and the carried-over overlap is bounded by `overlap`, not
exact — see the counterexample). -/
theorem C2_amended (files : List (String × Except String String)) (cs co : Nat)
    (hco : co < cs) (c : String) (hc : c ∈ (load_and_chunk files cs co).chunks) :
    c.length ≤ cs := by
  obtain ⟨p, _, hcp⟩ := chunkDocs_chunks_mem cs co (readDocs files).1 c hc
  exact split_text_bound cs co (by omega) p.1 c hcp

/-- C2 amended, witnessed on the counterexample corpus: `overlap` = 2 <
`chunk_size` = 5, the chunk `"bbbb"` is produced, and it fits in 5. -/
theorem C2_amended_witness :
    (2 < 5)
    ∧ "bbbb" ∈ (load_and_chunk [("doc.txt", Except.ok "aaaa bbbb")] 5 2).chunks
    ∧ "bbbb".length ≤ 5 :=
  ⟨by decide, by decide,
    C2_amended [("doc.txt", Except.ok "aaaa bbbb")] 5 2 (by decide) "bbbb" (by decide)⟩

/-! ## Embedding index (spec-modelled) -/

/-- Modelled from the spec: the vector store built by `build_store`
(`rag_utils.py` lines 57-73) is the third-party FAISS index, whose code
is not in the repository; per spec §3/§4.2 it holds one entry per chunk
— (vector, chunk text, metadata) — with the embedding vector abstracted
into the query-time similarity ranking. -/
structure VectorStore where
  entries : List Doc
  deriving DecidableEq, Repr

/-- Modelled from the spec: `build_store(chunks, metas)` /
`FAISS.from_texts` pairs each chunk text with its metadata record; entry
count equals chunk count at build time. -/
def build_store (chunks metas : List String) : VectorStore :=
  ⟨(chunks.zip metas).map (fun p => ⟨p.1, p.2⟩)⟩

/-- Modelled from the spec: `store.similarity_search(query, k)` returns
the `k` most similar entries in descending similarity order, each with
its original metadata; the embedding-space similarity is an opaque
ranking parameter `score` (lower = more similar). -/
def similarity_search (score : String → Doc → Nat) (store : VectorStore)
    (q : String) (k : Nat) : List Doc :=
  (store.entries.insertionSort (fun a b => score q a ≤ score q b)).take k

/-- C5: building the index from zero chunks succeeds, and querying it with
any query string and any `k` returns the empty result set without error. -/
theorem C5_empty_index (score : String → Doc → Nat) (q : String) (k : Nat) :
    build_store [] [] = ⟨[]⟩
    ∧ similarity_search score (build_store [] []) q k = [] := by
  constructor
  · rfl
  · simp [similarity_search, build_store]

/-- C9: querying a built index holding `n` entries with `k > n` (more
generally `k ≥ n`) returns exactly all `n` indexed chunks — a
permutation of the entry list, every result being one of the original
entries with its metadata — and does not raise. -/
theorem C9_k_exceeds_count (score : String → Doc → Nat) (store : VectorStore)
    (q : String) (k : Nat) (hk : store.entries.length ≤ k) :
    (similarity_search score store q k).Perm store.entries
    ∧ (similarity_search score store q k).length = store.entries.length
    ∧ ∀ d ∈ similarity_search score store q k, d ∈ store.entries := by
  have hsorted := List.perm_insertionSort (fun a b => score q a ≤ score q b) store.entries
  have hlen : (store.entries.insertionSort (fun a b => score q a ≤ score q b)).length
      = store.entries.length := hsorted.length_eq
  have htake : (store.entries.insertionSort (fun a b => score q a ≤ score q b)).take k
      = store.entries.insertionSort (fun a b => score q a ≤ score q b) :=
    List.take_of_length_le (by omega)
  refine ⟨?_, ?_, ?_⟩
  · rw [similarity_search, htake]
    exact hsorted
  · rw [similarity_search, htake, hlen]
  · intro d hd
    rw [similarity_search, htake] at hd
    exact hsorted.mem_iff.mp hd

/-- C9 witnessed on a concrete two-entry index queried with `k` = 5: the
hypothesis 2 ≤ 5 holds and all entries come back. -/
theorem C9_k_exceeds_count_witness :
    (VectorStore.mk [⟨"c1", "a.txt"⟩, ⟨"c2", "b.txt"⟩]).entries.length ≤ 5
    ∧ (similarity_search (fun _ _ => 0) (VectorStore.mk [⟨"c1", "a.txt"⟩, ⟨"c2", "b.txt"⟩]) "q" 5).Perm
        (VectorStore.mk [⟨"c1", "a.txt"⟩, ⟨"c2", "b.txt"⟩]).entries
    ∧ (similarity_search (fun _ _ => 0) (VectorStore.mk [⟨"c1", "a.txt"⟩, ⟨"c2", "b.txt"⟩]) "q" 5).length
        = (VectorStore.mk [⟨"c1", "a.txt"⟩, ⟨"c2", "b.txt"⟩]).entries.length :=
  ⟨by decide,
    (C9_k_exceeds_count (fun _ _ => 0) (VectorStore.mk [⟨"c1", "a.txt"⟩, ⟨"c2", "b.txt"⟩])
      "q" 5 (by decide)).1,
    (C9_k_exceeds_count (fun _ _ => 0) (VectorStore.mk [⟨"c1", "a.txt"⟩, ⟨"c2", "b.txt"⟩])
      "q" 5 (by decide)).2.1⟩

end RagChatbot
